import Mathlib

/-!
Verification development for the LCA computation engine of `bw25fastapi`
(`src/main.py`, `src/models.py`, `src/utils.py`).

The engine is `staticLCA` together with the route handler `run_lca`.
Pure Python fragments (validation, demand conversion, result assembly,
results formatting) are translated directly from the source.  The linear
algebra performed by the external `bw2calc.LCA` collaborator (matrix
storage, factorization cache, linear solve, characterization matrices)
is modelled from the spec, over exact rational arithmetic, with an
explicit operation trace so that resource-usage claims can be stated.
-/

/-- A 3-part impact-assessment method key (family, category, indicator),
matching `Tuple[str, str, str]` from `models.py`. -/
abbrev MethodKey : Type := String × String × String

/-- A Python value appearing in the `impact_categories` list handed to
`staticLCA`.  The source only ever inspects whether the value is a tuple,
whether its first component is a string, and (when actually used as a
method) its identity as a 3-tuple of strings. -/
inductive MethodVal where
  /-- a well-formed method key: a tuple of three strings -/
  | key (k : MethodKey)
  /-- a tuple whose first component is a string but which is not a
  well-formed key (e.g. a later component is not a string) -/
  | tupleMixed
  /-- a tuple whose first component is not a string -/
  | tupleBadHead
  /-- a value that is not a tuple at all -/
  | nonTuple
deriving DecidableEq

/-- `isinstance(m, tuple)` for a method value. -/
def MethodVal.isTuple : MethodVal → Bool
  | .key _ => true
  | .tupleMixed => true
  | .tupleBadHead => true
  | .nonTuple => false

/-- `isinstance(m[0], str)` for a method value (only ever evaluated after
`isinstance(m, tuple)` short-circuits). -/
def MethodVal.firstIsStr : MethodVal → Bool
  | .key _ => true
  | .tupleMixed => true
  | .tupleBadHead => false
  | .nonTuple => false

/-- The well-formed method key carried by a value, when there is one. -/
def MethodVal.asKey? : MethodVal → Option MethodKey
  | .key k => some k
  | _ => none

/-- The well-formed keys of a method list, in order. -/
def keysOf (ms : List MethodVal) : List MethodKey :=
  ms.filterMap MethodVal.asKey?

/-- Exceptions `staticLCA` can raise. -/
inductive Err where
  /-- `ValueError` raised when the method list is empty -/
  | noMethods
  /-- `AssertionError` from the method-shape assertion -/
  | assertFailed
  /-- lookup failure for an activity key (`bd.get_activity` / matrix build) -/
  | activityNotFound (k : String)
  /-- lookup failure for a method during construction or `switch_method` -/
  | methodNotFound
  /-- `IndexError` from `list(demand.keys())[0]` on an empty demand -/
  | emptyDemand
deriving DecidableEq

/-- Expensive operations performed by the modelled `bw2calc` session;
recorded in an instrumentation trace. -/
inductive Op where
  /-- factorizing the technosphere matrix -/
  | factorize
  /-- one linear solve `A·s = f` (one `lci` computation) -/
  | solve
  /-- building the characterization matrix of a method -/
  | buildC (k : MethodKey)
  /-- applying a characterization matrix to an inventory (one score) -/
  | characterize (k : MethodKey)
deriving DecidableEq

/-- Modelled from the spec: the database backing one evaluation — the
Process Graph Store's matrix slice (technosphere `A`, biosphere `B`),
activity resolution, the human-readable activity label used as result
key (`str(act)`), and the Method Registry (`bd.methods` plus each
method's characterization matrix). -/
structure Db (np ne nc : ℕ) where
  A : Matrix (Fin np) (Fin np) ℚ
  B : Matrix (Fin ne) (Fin np) ℚ
  getAct : String → Option (Fin np)
  actStr : Fin np → String
  methodsList : List MethodKey
  cfs : MethodKey → Option (Matrix (Fin nc) (Fin ne) ℚ)

/-- A demand as `staticLCA` receives it: an insertion-ordered mapping
from activity key to requested amount. -/
abbrev Demand : Type := List (String × ℚ)

/-- Turn an insertion-ordered `(index, amount)` association into a sparse
demand vector; later entries for the same key overwrite earlier ones,
exactly as in a Python dict comprehension. -/
def dictToVec {np : ℕ} (l : List (Fin np × ℚ)) : Fin np → ℚ :=
  l.foldl (fun v p => Function.update v p.1 p.2) 0

/-- Modelled from the spec: the Linear Solver.  `solveVec A f` is the
scaling vector `s` with `A·s = f` (written with the adjugate so that it
is a total function; it agrees with `A⁻¹ ·ᵥ f`, and `solveVec_mulVec`
below shows it satisfies the defining equation when `A` is invertible). -/
def solveVec {n : ℕ} (A : Matrix (Fin n) (Fin n) ℚ) (f : Fin n → ℚ) : Fin n → ℚ :=
  (A.det)⁻¹ • (A.adjugate.mulVec f)

/-- Sum of all entries of a matrix: `(...).sum()` in the source. -/
def matSum {r c : ℕ} (M : Matrix (Fin r) (Fin c) ℚ) : ℚ :=
  ∑ i, ∑ j, M i j

/-- The demand vector `staticLCA` actually builds for one demand:
`int_demand = {act.id: value for _, value in demand.items()}` — every
item is keyed by the id of the demand's FIRST activity `a`. -/
def intDemandVec {np ne nc : ℕ} (_db : Db np ne nc) (a : Fin np) (d : Demand) :
    Fin np → ℚ :=
  dictToVec (d.map (fun p => (a, p.2)))

/-- The demand vector as built by the source for a whole demand
(`None` when the demand is empty or its first key is unknown). -/
def demandVecCode {np ne nc : ℕ} (db : Db np ne nc) (d : Demand) :
    Option (Fin np → ℚ) :=
  match d with
  | [] => none
  | (k0, _) :: _ => (db.getAct k0).map (fun a => intDemandVec db a d)

/-- Modelled from the spec: the Demand Vector `f` — "sparse mapping from
process id to requested amount": each key of the demand is resolved to
its own process index and carries its own amount. -/
def demandVecSpec {np ne nc : ℕ} (db : Db np ne nc) (d : Demand) :
    Option (Fin np → ℚ) :=
  match d.mapM (fun p => (db.getAct p.1).map (fun a => (a, p.2))) with
  | none => none
  | some l => some (dictToVec l)

/-- State of the modelled `bw2calc` session: whether the technosphere
factorization has been produced (spec: created lazily on first solve),
which characterization matrices have been built (spec: cached by method
key for the session's lifetime), and the operation trace. -/
structure Sess where
  factorized : Bool
  builtC : List MethodKey
  ops : List Op

/-- A fresh session, as after `bc.LCA(...)` construction. -/
def Sess.init : Sess := ⟨false, [], []⟩

/-- Modelled from the spec: one `lca.lci(f)` call — a linear solve
against the cached factorization, factorizing lazily on first use. -/
def solveOp {np ne nc : ℕ} (db : Db np ne nc) (s : Sess) (f : Fin np → ℚ) :
    Sess × (Fin np → ℚ) :=
  if s.factorized then ({ s with ops := s.ops ++ [.solve] }, solveVec db.A f)
  else ({ s with factorized := true, ops := s.ops ++ [.factorize, .solve] },
        solveVec db.A f)

/-- Modelled from the spec: `lca.switch_method(m)` — resolve the method,
building its characterization matrix once per session (cache keyed by
method key). -/
def switchOp {np ne nc : ℕ} (db : Db np ne nc) (s : Sess) (m : MethodVal) :
    Sess × Except Err (MethodKey × Matrix (Fin nc) (Fin ne) ℚ) :=
  match m.asKey? with
  | none => (s, .error .methodNotFound)
  | some k =>
    match db.cfs k with
    | none => (s, .error .methodNotFound)
    | some C =>
      if k ∈ s.builtC then (s, .ok (k, C))
      else ({ s with builtC := k :: s.builtC, ops := s.ops ++ [.buildC k] },
            .ok (k, C))

/-- The `C_matrices` loop of `staticLCA`: switch to each method once,
building (and caching) its characterization matrix. -/
def buildCms {np ne nc : ℕ} (db : Db np ne nc) :
    Sess → List MethodVal → Sess × Except Err Unit
  | s, [] => (s, .ok ())
  | s, m :: ms =>
    match switchOp db s m with
    | (s1, .error e) => (s1, .error e)
    | (s1, .ok _) => buildCms db s1 ms

/-- The inner method loop of the demand loop: for each method, switch to
it and score the cached characterization matrix against the inventory:
`(C_matrices[method] * lca.inventory).sum()`. -/
def scoreLoop {np ne nc : ℕ} (db : Db np ne nc)
    (inv : Matrix (Fin ne) (Fin np) ℚ) :
    Sess → List MethodVal → Sess × Except Err (List (MethodKey × ℚ))
  | s, [] => (s, .ok [])
  | s, m :: ms =>
    match switchOp db s m with
    | (s1, .error e) => (s1, .error e)
    | (s1, .ok (k, C)) =>
      let s2 : Sess := { s1 with ops := s1.ops ++ [.characterize k] }
      match scoreLoop db inv s2 ms with
      | (s3, .error e) => (s3, .error e)
      | (s3, .ok rest) => (s3, .ok ((k, matSum (C * inv)) :: rest))

/-- One iteration of the demand loop: resolve the demand's first
activity, build `int_demand`, solve, derive the inventory matrix
(biosphere × scaling diagonal) and score every method. -/
def evalDemand {np ne nc : ℕ} (db : Db np ne nc) (methods : List MethodVal)
    (s : Sess) (d : Demand) :
    Sess × Except Err (String × List (MethodKey × ℚ)) :=
  match d with
  | [] => (s, .error .emptyDemand)
  | (k0, _) :: _ =>
    match db.getAct k0 with
    | none => (s, .error (.activityNotFound k0))
    | some a =>
      let (s1, sv) := solveOp db s (intDemandVec db a d)
      let inv := db.B * Matrix.diagonal sv
      match scoreLoop db inv s1 methods with
      | (s2, .error e) => (s2, .error e)
      | (s2, .ok scores) => (s2, .ok (db.actStr a, scores))

/-- Raw results container: `results` in the source, a dict from result
label (`str(act)`) to a per-method score mapping. -/
abbrev ResultDict : Type := List (String × List (MethodKey × ℚ))

/-- Python dict assignment `results[key] = v`: replace in place when the
key exists, append otherwise. -/
def upsert {β : Type} (l : List (String × β)) (k : String) (v : β) :
    List (String × β) :=
  if l.any (fun p => p.1 == k) then
    l.map (fun p => if p.1 == k then (k, v) else p)
  else l ++ [(k, v)]

/-- The demand loop of `staticLCA`. -/
def runDemands {np ne nc : ℕ} (db : Db np ne nc) (methods : List MethodVal) :
    Sess → List Demand → ResultDict → Sess × Except Err ResultDict
  | s, [], acc => (s, .ok acc)
  | s, d :: ds, acc =>
    match evalDemand db methods s d with
    | (s1, .error e) => (s1, .error e)
    | (s1, .ok (key, scores)) => runDemands db methods s1 ds (upsert acc key scores)

/-- `" | ".join(key)` for a 3-part method key. -/
def joinKey (k : MethodKey) : String :=
  k.1 ++ " | " ++ k.2.1 ++ " | " ++ k.2.2

/-- Formatted results, as returned to the route: method keys rendered as
joined strings (`utils.convert_results_format`). -/
abbrev FmtResults : Type := List (String × List (String × ℚ))

/-- `utils.convert_results_format`: render each inner method-key tuple as
a `" | "`-joined string, keeping outer keys and score values. -/
def convert_results_format (results : ResultDict) : FmtResults :=
  results.map (fun p => (p.1, p.2.map (fun q => (joinKey q.1, q.2))))

/-- The validation prologue of `staticLCA`: the empty-methods
`ValueError` check followed by the shape assertion, which inspects only
`methods[0]`. -/
def checkMethods : List MethodVal → Except Err Unit
  | [] => .error .noMethods
  | m :: _ => if m.isTuple && m.firstIsStr then .ok () else .error .assertFailed

/-- Resolve every activity key of a demand list (as the `bc.LCA`
constructor does for `all_demands`), failing on the first unknown key. -/
def resolveAll {np ne nc : ℕ} (db : Db np ne nc) :
    List (String × ℚ) → Except Err (List (Fin np × ℚ))
  | [] => .ok []
  | (k, v) :: rest =>
    match db.getAct k with
    | none => .error (.activityNotFound k)
    | some a => (resolveAll db rest).map (fun l => (a, v) :: l)

/-- The method resolution the `bc.LCA` constructor performs for its
`method=methods[0]` argument. -/
def constructorCheck {np ne nc : ℕ} (db : Db np ne nc) :
    List MethodVal → Except Err Unit
  | [] => .error .noMethods
  | m :: _ =>
    match m.asKey? with
    | none => .error .methodNotFound
    | some k => if (db.cfs k).isSome then .ok () else .error .methodNotFound

/-- `all_demands = {k: 1 for demand in demands for k in demand}`:
the union of all demanded activity keys, each with amount 1. -/
def allDemandsOf (demands : List Demand) : List (String × ℚ) :=
  demands.flatMap (fun d => d.map (fun p => (p.1, (1 : ℚ))))

/-- Everything `staticLCA` does before any matrix work: validation and
`bc.LCA` construction (resolution of `all_demands` and of
`methods[0]`).  Returns the resolved union demand. -/
def staticPrelude {np ne nc : ℕ} (db : Db np ne nc) (demands : List Demand)
    (methods : List MethodVal) : Except Err (List (Fin np × ℚ)) :=
  match checkMethods methods with
  | .error e => .error e
  | .ok _ =>
    match resolveAll db (allDemandsOf demands) with
    | .error e => .error e
    | .ok intAll =>
      match constructorCheck db methods with
      | .error e => .error e
      | .ok _ => .ok intAll

/-- `staticLCA` from `src/main.py`: validate, construct the session,
run the initial `lci()` over `all_demands`, build every method's
characterization matrix once, then loop over the demands, solving each
and scoring every method; finally format the results.  Returns the
session's operation trace together with the outcome. -/
def staticLCA {np ne nc : ℕ} (db : Db np ne nc) (demands : List Demand)
    (methods : List MethodVal) : List Op × Except Err FmtResults :=
  match staticPrelude db demands methods with
  | .error e => ([], .error e)
  | .ok intAll =>
    match buildCms db (solveOp db Sess.init (dictToVec intAll)).1 methods with
    | (s2, .error e) => (s2.ops, .error e)
    | (s2, .ok _) =>
      match runDemands db methods s2 demands [] with
      | (s3, .error e) => (s3.ops, .error e)
      | (s3, .ok results) => (s3.ops, .ok (convert_results_format results))

/-- The result-dict key a demand produces: `str(act)` of its first
activity. -/
def resultKey {np ne nc : ℕ} (db : Db np ne nc) (d : Demand) : Option String :=
  match d with
  | [] => none
  | (k0, _) :: _ => (db.getAct k0).map db.actStr

/-! ## The `run_lca` route handler -/

/-- `LCARequest` from `models.py` (the demand dicts keyed by activity
code; `run_lca` re-keys them by `(database_name, code)`, which resolves
the same activities, so the model keeps the plain code as the key). -/
structure LCARequest where
  demands : List Demand
  impact_categories : List (List String)
  lcia_method : Option String

/-- HTTP-level failures of `run_lca`. -/
inductive HErr where
  /-- `HTTPException(status_code=404, ...)` -/
  | notFound (detail : String)
  /-- `HTTPException(status_code=400, ...)` -/
  | badRequest (detail : String)
  /-- an exception escaping `staticLCA` (HTTP 500) -/
  | internal (e : Err)
deriving DecidableEq

/-- The per-demand key check of `run_lca` for one demand
(`db.get(key)` wrapped in try/except). -/
def checkKeys {np ne nc : ℕ} (db : Db np ne nc) :
    List (String × ℚ) → Except HErr Unit
  | [] => .ok ()
  | (k, _) :: rest =>
    if (db.getAct k).isSome then checkKeys db rest
    else .error (.notFound ("Activity " ++ k ++ " not found."))

/-- The demand-validation loop of `run_lca`: every key of every demand
must resolve, aborting at the first unknown key. -/
def checkDemandKeys {np ne nc : ℕ} (db : Db np ne nc) :
    List Demand → Except HErr Unit
  | [] => .ok ()
  | d :: ds =>
    match checkKeys db d with
    | .error e => .error e
    | .ok _ => checkDemandKeys db ds

/-- `tuple(method_list)` viewed as a 3-part method key, when it has
exactly three components. -/
def tupleOfList : List String → Option MethodKey
  | [a, b, c] => some (a, b, c)
  | _ => none

/-- The explicit `impact_categories` loop of `run_lca`: convert each
listed category to a tuple and require membership in `bd.methods`,
aborting with a 404 on the first failure. -/
def catsLoop {np ne nc : ℕ} (db : Db np ne nc) :
    List (List String) → Except HErr (List MethodKey)
  | [] => .ok []
  | ml :: rest =>
    match tupleOfList ml with
    | none => .error (.notFound "Impact category not found.")
    | some t =>
      if t ∈ db.methodsList then (catsLoop db rest).map (fun l => t :: l)
      else .error (.notFound "Impact category not found.")

/-- Method selection in `run_lca`: a truthy `lcia_method` selects every
registered method whose first component matches (ignoring the request's
`impact_categories`); otherwise a non-empty `impact_categories` list is
checked entry by entry; otherwise the request is a 400. -/
def selectMethods {np ne nc : ℕ} (db : Db np ne nc) (body : LCARequest) :
    Except HErr (List MethodKey) :=
  match body.lcia_method with
  | some s =>
    if s = "" then selectFromCats db body.impact_categories
    else .ok (db.methodsList.filter (fun m => m.1 == s))
  | none => selectFromCats db body.impact_categories
where
  selectFromCats {np ne nc : ℕ} (db : Db np ne nc) (ics : List (List String)) :
      Except HErr (List MethodKey) :=
    if ics.isEmpty then
      .error (.badRequest "No impact categories provided or lcia method provided.")
    else catsLoop db ics

/-- The `run_lca` route handler (after project/database resolution,
which is external to the computation engine): validate every demand key,
select the methods, then run `staticLCA`; any exception escaping
`staticLCA` surfaces as an internal error. -/
def run_lca {np ne nc : ℕ} (db : Db np ne nc) (body : LCARequest) :
    Except HErr FmtResults :=
  match checkDemandKeys db body.demands with
  | .error e => .error e
  | .ok _ =>
    match selectMethods db body with
    | .error e => .error e
    | .ok cats =>
      match (staticLCA db body.demands (cats.map MethodVal.key)).2 with
      | .error e => .error (.internal e)
      | .ok r => .ok r

/-- Whether a `run_lca` outcome is a not-found (404) failure. -/
def isNotFound : Except HErr FmtResults → Bool
  | .error (.notFound _) => true
  | _ => false

/-- The first activity key of a batch that the database cannot resolve,
in the iteration order of `run_lca`'s validation loop. -/
def firstUnknownKey {np ne nc : ℕ} (db : Db np ne nc) (ds : List Demand) :
    Option String :=
  (ds.flatMap (fun d => d.map Prod.fst)).find? (fun k => (db.getAct k).isNone)

/-- Whether an explicitly supplied impact category fails `run_lca`'s
membership check (not a 3-tuple, or not a registered method). -/
def badCat {np ne nc : ℕ} (db : Db np ne nc) (ml : List String) : Bool :=
  match tupleOfList ml with
  | none => true
  | some t => decide (t ∉ db.methodsList)

/-! ## Concrete test databases -/

/-- A one-process, one-flow, one-category database: the process `"p"`
(label `"P"`) produces itself with amount 1 and emits 5 units of the
single elementary flow per unit of activity; the registered method
`("m", "c", "i")` has characterization factor 3. -/
def testDb1 : Db 1 1 1 where
  A := 1
  B := !![(5 : ℚ)]
  getAct := fun k => if k = "p" then some 0 else none
  actStr := fun _ => "P"
  methodsList := [("m", "c", "i")]
  cfs := fun k => if k = ("m", "c", "i") then some !![(3 : ℚ)] else none

/-- A two-process database with identity technosphere: processes `"p1"`
(label `"P1"`) and `"p2"` (label `"P2"`); the biosphere flow amounts are
1 per unit of `p1` and 5 per unit of `p2`; same method as `testDb1`. -/
def testDb2 : Db 2 1 1 where
  A := 1
  B := !![(1 : ℚ), 5]
  getAct := fun k => if k = "p1" then some 0 else if k = "p2" then some 1 else none
  actStr := fun i => if i = 0 then "P1" else "P2"
  methodsList := [("m", "c", "i")]
  cfs := fun k => if k = ("m", "c", "i") then some !![(3 : ℚ)] else none

/-! ## Basic lemmas about the solver and the session -/

theorem solveVec_mulVec {n : ℕ} (A : Matrix (Fin n) (Fin n) ℚ) (f : Fin n → ℚ)
    (hA : A.det ≠ 0) : A.mulVec (solveVec A f) = f := by
  unfold solveVec
  rw [Matrix.mulVec_smul, Matrix.mulVec_mulVec, Matrix.mul_adjugate,
    Matrix.smul_mulVec_assoc, Matrix.one_mulVec, smul_smul,
    inv_mul_cancel₀ hA, one_smul]

theorem solveVec_one {n : ℕ} (f : Fin n → ℚ) :
    solveVec (1 : Matrix (Fin n) (Fin n) ℚ) f = f := by
  simp [solveVec, Matrix.adjugate_one]

theorem solveOp_fst {np ne nc : ℕ} (db : Db np ne nc) (f : Fin np → ℚ) :
    (solveOp db Sess.init f).1
      = ⟨true, [], [Op.factorize, Op.solve]⟩ := rfl

theorem staticLCA_no_methods {np ne nc : ℕ} (db : Db np ne nc)
    (demands : List Demand) :
    staticLCA db demands [] = ([], .error .noMethods) := by
  simp [staticLCA, staticPrelude, checkMethods]

theorem staticPrelude_ok_inv {np ne nc : ℕ} {db : Db np ne nc}
    {ds : List Demand} {ms : List MethodVal} {intAll : List (Fin np × ℚ)}
    (h : staticPrelude db ds ms = .ok intAll) :
    checkMethods ms = .ok () ∧
    resolveAll db (allDemandsOf ds) = .ok intAll ∧
    constructorCheck db ms = .ok () := by
  unfold staticPrelude at h
  rcases hc : checkMethods ms with e | u
  · rw [hc] at h; cases h
  · rw [hc] at h
    rcases hr : resolveAll db (allDemandsOf ds) with e | l
    · rw [hr] at h; cases h
    · rw [hr] at h
      rcases hk : constructorCheck db ms with e | u2
      · rw [hk] at h; cases h
      · rw [hk] at h
        cases h
        exact ⟨rfl, rfl, rfl⟩

theorem staticPrelude_of_parts {np ne nc : ℕ} {db : Db np ne nc}
    {ds : List Demand} {ms : List MethodVal} {intAll : List (Fin np × ℚ)}
    (hc : checkMethods ms = .ok ())
    (hr : resolveAll db (allDemandsOf ds) = .ok intAll)
    (hk : constructorCheck db ms = .ok ()) :
    staticPrelude db ds ms = .ok intAll := by
  unfold staticPrelude
  rw [hc, hr, hk]

theorem staticLCA_ok_inv {np ne nc : ℕ} {db : Db np ne nc} {ds : List Demand}
    {ms : List MethodVal} {t : List Op} {r : FmtResults}
    (h : staticLCA db ds ms = (t, .ok r)) :
    ∃ intAll s2 s3 results,
      staticPrelude db ds ms = .ok intAll ∧
      buildCms db (solveOp db Sess.init (dictToVec intAll)).1 ms = (s2, .ok ()) ∧
      runDemands db ms s2 ds [] = (s3, .ok results) ∧
      t = s3.ops ∧ r = convert_results_format results := by
  unfold staticLCA at h
  split at h
  · simp at h
  next intAll hp =>
    split at h
    next s2 e hb => simp at h
    next s2 a hb =>
      split at h
      next s3 e hr => simp at h
      next s3 results hr =>
        injection h with h1 h2
        injection h2 with h2
        exact ⟨intAll, s2, s3, results, hp, by cases a; exact hb, hr, h1.symm, h2.symm⟩

theorem staticLCA_of_parts {np ne nc : ℕ} {db : Db np ne nc} {ds : List Demand}
    {ms : List MethodVal} {intAll : List (Fin np × ℚ)} {s2 s3 : Sess}
    {results : ResultDict}
    (hp : staticPrelude db ds ms = .ok intAll)
    (hb : buildCms db (solveOp db Sess.init (dictToVec intAll)).1 ms = (s2, .ok ()))
    (hr : runDemands db ms s2 ds [] = (s3, .ok results)) :
    staticLCA db ds ms = (s3.ops, .ok (convert_results_format results)) := by
  unfold staticLCA
  rw [hp]
  dsimp only
  rw [hb]
  dsimp only
  rw [hr]

/-! ## The per-demand outcome does not depend on the session state -/

theorem switchOp_snd_indep {np ne nc : ℕ} (db : Db np ne nc) (m : MethodVal)
    (s s' : Sess) : (switchOp db s m).2 = (switchOp db s' m).2 := by
  rcases hk : m.asKey? with _ | k
  · simp [switchOp, hk]
  · rcases hc : db.cfs k with _ | C
    · simp [switchOp, hk, hc]
    · by_cases h1 : k ∈ s.builtC <;> by_cases h2 : k ∈ s'.builtC <;>
        simp [switchOp, hk, hc, h1, h2]

theorem scoreLoop_snd_indep {np ne nc : ℕ} (db : Db np ne nc)
    (inv : Matrix (Fin ne) (Fin np) ℚ) :
    ∀ (ms : List MethodVal) (s s' : Sess),
      (scoreLoop db inv s ms).2 = (scoreLoop db inv s' ms).2 := by
  intro ms
  induction ms with
  | nil => intro s s'; rfl
  | cons m ms ih =>
    intro s s'
    rcases hsw : switchOp db s m with ⟨s1, w⟩
    rcases hsw' : switchOp db s' m with ⟨s1', w'⟩
    have hw : w = w' := by
      have := switchOp_snd_indep db m s s'
      rw [hsw, hsw'] at this; exact this
    subst hw
    cases w with
    | error e => simp [scoreLoop, hsw, hsw']
    | ok kc =>
      rcases kc with ⟨k, C⟩
      simp only [scoreLoop, hsw, hsw']
      rcases h2 : scoreLoop db inv { s1 with ops := s1.ops ++ [.characterize k] } ms
        with ⟨s3, w3⟩
      rcases h2' : scoreLoop db inv { s1' with ops := s1'.ops ++ [.characterize k] } ms
        with ⟨s3', w3'⟩
      have hw3 : w3 = w3' := by
        have := ih { s1 with ops := s1.ops ++ [.characterize k] }
          { s1' with ops := s1'.ops ++ [.characterize k] }
        rw [h2, h2'] at this; exact this
      subst hw3
      cases w3 <;> rfl

theorem evalDemand_snd_indep {np ne nc : ℕ} (db : Db np ne nc)
    (ms : List MethodVal) (d : Demand) (s s' : Sess) :
    (evalDemand db ms s d).2 = (evalDemand db ms s' d).2 := by
  rcases d with _ | ⟨⟨k0, v0⟩, rest⟩
  · rfl
  · rcases ha : db.getAct k0 with _ | a
    · simp [evalDemand, ha]
    · have hs : (solveOp db s (intDemandVec db a ((k0, v0) :: rest))).2
          = (solveOp db s' (intDemandVec db a ((k0, v0) :: rest))).2 := by
        by_cases h : s.factorized <;> by_cases h' : s'.factorized <;>
          simp [solveOp, h, h']
      rcases h1 : solveOp db s (intDemandVec db a ((k0, v0) :: rest)) with ⟨s1, sv⟩
      rcases h1' : solveOp db s' (intDemandVec db a ((k0, v0) :: rest)) with ⟨s1', sv'⟩
      have hv : sv = sv' := by rw [h1, h1'] at hs; exact hs
      subst hv
      simp only [evalDemand, ha, h1, h1']
      rcases h2 : scoreLoop db (db.B * Matrix.diagonal sv) s1 ms with ⟨s2, w2⟩
      rcases h2' : scoreLoop db (db.B * Matrix.diagonal sv) s1' ms with ⟨s2', w2'⟩
      have hw : w2 = w2' := by
        have := scoreLoop_snd_indep db (db.B * Matrix.diagonal sv) ms s1 s1'
        rw [h2, h2'] at this; exact this
      subst hw
      cases w2 <;> rfl

theorem evalDemand_key {np ne nc : ℕ} {db : Db np ne nc} {ms : List MethodVal}
    {d : Demand} {s s2 : Sess} {key : String} {sc : List (MethodKey × ℚ)}
    (h : evalDemand db ms s d = (s2, .ok (key, sc))) :
    resultKey db d = some key := by
  rcases d with _ | ⟨⟨k0, v0⟩, rest⟩
  · simp [evalDemand] at h
  · rcases ha : db.getAct k0 with _ | a
    · simp [evalDemand, ha] at h
    · simp only [evalDemand, ha] at h
      rcases h1 : solveOp db s (intDemandVec db a ((k0, v0) :: rest)) with ⟨s1, sv⟩
      rw [h1] at h
      rcases h2 : scoreLoop db (db.B * Matrix.diagonal sv) s1 ms with ⟨s3, w⟩
      rw [h2] at h
      cases w with
      | error e => simp at h
      | ok scores =>
        simp only at h
        injection h with hA hB
        injection hB with hB
        injection hB with hkey hsc
        simp [resultKey, ha, hkey]

/-! ## Dict-assignment lemmas -/

theorem upsert_nil {β : Type} (k : String) (v : β) :
    upsert ([] : List (String × β)) k v = [(k, v)] := rfl

theorem upsert_not_mem {β : Type} (l : List (String × β)) (k : String) (v : β)
    (h : ∀ p ∈ l, p.1 ≠ k) : upsert l k v = l ++ [(k, v)] := by
  unfold upsert
  have hany : l.any (fun p => p.1 == k) = false := by
    simp only [List.any_eq_false]
    intro p hp
    simpa using h p hp
  rw [hany]
  simp

theorem upsert_single_overwrite {β : Type} (k : String) (v1 v2 : β) :
    upsert [(k, v1)] k v2 = [(k, v2)] := by
  simp [upsert]

/-! ## Operation accounting -/

theorem buildCms_ok_spec {np ne nc : ℕ} (db : Db np ne nc) :
    ∀ (ms : List MethodVal) (s s2 : Sess),
      buildCms db s ms = (s2, .ok ()) →
      s2.factorized = s.factorized ∧
      (∀ k, k ∈ s2.builtC ↔ (k ∈ keysOf ms ∨ k ∈ s.builtC)) ∧
      (∀ k, s2.ops.count (.buildC k)
          = s.ops.count (.buildC k)
            + (if k ∈ keysOf ms ∧ k ∉ s.builtC then 1 else 0)) ∧
      s2.ops.count .solve = s.ops.count .solve ∧
      s2.ops.count .factorize = s.ops.count .factorize ∧
      (∀ k, s2.ops.count (.characterize k) = s.ops.count (.characterize k)) := by
  intro ms
  induction ms with
  | nil =>
    intro s s2 h
    simp only [buildCms] at h
    injection h with h1 h2
    subst h1
    simp [keysOf]
  | cons m ms ih =>
    intro s s2 h
    rcases hk : m.asKey? with _ | k
    · simp [buildCms, switchOp, hk] at h
    · rcases hc : db.cfs k with _ | C
      · simp [buildCms, switchOp, hk, hc] at h
      · have hkeys : keysOf (m :: ms) = k :: keysOf ms := by
          simp [keysOf, List.filterMap_cons, hk]
        by_cases hmem : k ∈ s.builtC
        · simp only [buildCms, switchOp, hk, hc, if_pos hmem] at h
          obtain ⟨ih1, ih2, ih3, ih4, ih5, ih6⟩ := ih s s2 h
          refine ⟨ih1, ?_, ?_, ih4, ih5, ih6⟩
          · intro k2
            rw [ih2 k2, hkeys]
            by_cases hkk : k2 = k
            · subst hkk; simp [hmem]
            · simp [List.mem_cons, hkk]
          · intro k2
            rw [ih3 k2, hkeys]
            congr 1
            by_cases hkk : k2 = k
            · subst hkk; simp [hmem]
            · simp [List.mem_cons, hkk]
        · simp only [buildCms, switchOp, hk, hc, if_neg hmem] at h
          obtain ⟨ih1, ih2, ih3, ih4, ih5, ih6⟩ :=
            ih { s with builtC := k :: s.builtC, ops := s.ops ++ [.buildC k] } s2 h
          rw [hkeys]
          refine ⟨ih1, ?_, ?_, ?_, ?_, ?_⟩
          · intro k2
            rw [ih2 k2]
            simp only [List.mem_cons]
            tauto
          · intro k2
            rw [ih3 k2]
            simp only [List.count_append, List.mem_cons]
            by_cases hkk : k2 = k
            · subst hkk
              simp [hmem, List.count_singleton']
            · have : (Op.buildC k2) ∉ [Op.buildC k] := by simp [hkk]
              simp [List.count_eq_zero.mpr this, hkk]
          · rw [ih4]
            have : (Op.solve) ∉ [Op.buildC k] := by simp
            simp [List.count_eq_zero.mpr this]
          · rw [ih5]
            have : (Op.factorize) ∉ [Op.buildC k] := by simp
            simp [List.count_eq_zero.mpr this]
          · intro k2
            rw [ih6 k2]
            have : (Op.characterize k2) ∉ [Op.buildC k] := by simp
            simp [List.count_eq_zero.mpr this]

theorem scoreLoop_ok_trace {np ne nc : ℕ} (db : Db np ne nc)
    (inv : Matrix (Fin ne) (Fin np) ℚ) :
    ∀ (ms : List MethodVal) (s s2 : Sess) (sc : List (MethodKey × ℚ)),
      (∀ k, k ∈ keysOf ms → k ∈ s.builtC) →
      scoreLoop db inv s ms = (s2, .ok sc) →
      s2.factorized = s.factorized ∧ s2.builtC = s.builtC ∧
      s2.ops = s.ops ++ (keysOf ms).map Op.characterize := by
  intro ms
  induction ms with
  | nil =>
    intro s s2 sc _ h
    simp only [scoreLoop] at h
    injection h with h1 h2
    subst h1
    simp [keysOf]
  | cons m ms ih =>
    intro s s2 sc hsub h
    rcases hk : m.asKey? with _ | k
    · simp [scoreLoop, switchOp, hk] at h
    · rcases hc : db.cfs k with _ | C
      · simp [scoreLoop, switchOp, hk, hc] at h
      · have hkeys : keysOf (m :: ms) = k :: keysOf ms := by
          simp [keysOf, List.filterMap_cons, hk]
        have hmem : k ∈ s.builtC := by
          apply hsub; rw [hkeys]; exact List.mem_cons_self k _
        simp only [scoreLoop, switchOp, hk, hc, if_pos hmem] at h
        rcases hsl : scoreLoop db inv { s with ops := s.ops ++ [.characterize k] } ms
          with ⟨s3, w⟩
        rw [hsl] at h
        cases w with
        | error e => simp at h
        | ok rest =>
          simp only at h
          injection h with h1 h2
          subst h1
          obtain ⟨g1, g2, g3⟩ := ih { s with ops := s.ops ++ [.characterize k] } s3 rest
            (by intro k2 hk2; apply hsub; rw [hkeys]; exact List.mem_cons_of_mem _ hk2)
            hsl
          refine ⟨g1, g2, ?_⟩
          rw [g3, hkeys]
          simp [List.append_assoc]

theorem evalDemand_ok_trace {np ne nc : ℕ} (db : Db np ne nc)
    (ms : List MethodVal) (s s2 : Sess) (d : Demand) (key : String)
    (sc : List (MethodKey × ℚ))
    (hsub : ∀ k, k ∈ keysOf ms → k ∈ s.builtC) (hfac : s.factorized = true)
    (h : evalDemand db ms s d = (s2, .ok (key, sc))) :
    s2.factorized = true ∧ s2.builtC = s.builtC ∧
    s2.ops = s.ops ++ [Op.solve] ++ (keysOf ms).map Op.characterize := by
  rcases d with _ | ⟨⟨k0, v0⟩, rest⟩
  · simp [evalDemand] at h
  · rcases ha : db.getAct k0 with _ | a
    · simp [evalDemand, ha] at h
    · have hso : solveOp db s (intDemandVec db a ((k0, v0) :: rest))
          = ({ s with ops := s.ops ++ [Op.solve] },
             solveVec db.A (intDemandVec db a ((k0, v0) :: rest))) := by
        simp [solveOp, hfac]
      simp only [evalDemand, ha, hso] at h
      rcases hsl : scoreLoop db
          (db.B * Matrix.diagonal (solveVec db.A (intDemandVec db a ((k0, v0) :: rest))))
          { s with ops := s.ops ++ [Op.solve] } ms with ⟨s3, w⟩
      rw [hsl] at h
      cases w with
      | error e => simp at h
      | ok scores =>
        simp only at h
        injection h with h1 h2
        subst h1
        obtain ⟨g1, g2, g3⟩ := scoreLoop_ok_trace db _ ms
          { s with ops := s.ops ++ [Op.solve] } s3 scores hsub hsl
        rw [hfac] at g1
        exact ⟨g1, g2, by rw [g3]⟩

theorem count_map_characterize (k : MethodKey) (l : List MethodKey) :
    (l.map Op.characterize).count (Op.characterize k) = l.count k := by
  induction l with
  | nil => rfl
  | cons a l ih =>
    by_cases h : a = k <;> simp [List.count_cons, h, ih]

theorem runDemands_ok_counts {np ne nc : ℕ} (db : Db np ne nc)
    (ms : List MethodVal) :
    ∀ (ds : List Demand) (s s2 : Sess) (acc r : ResultDict),
      (∀ k, k ∈ keysOf ms → k ∈ s.builtC) → s.factorized = true →
      runDemands db ms s ds acc = (s2, .ok r) →
      s2.ops.count .solve = s.ops.count .solve + ds.length ∧
      s2.ops.count .factorize = s.ops.count .factorize ∧
      (∀ k, s2.ops.count (.buildC k) = s.ops.count (.buildC k)) ∧
      (∀ k, s2.ops.count (.characterize k)
          = s.ops.count (.characterize k) + ds.length * (keysOf ms).count k) := by
  intro ds
  induction ds with
  | nil =>
    intro s s2 acc r _ _ h
    simp only [runDemands] at h
    injection h with h1 h2
    subst h1
    simp
  | cons d ds ih =>
    intro s s2 acc r hsub hfac h
    rcases hev : evalDemand db ms s d with ⟨s1, w⟩
    simp only [runDemands, hev] at h
    cases w with
    | error e => simp at h
    | ok p =>
      rcases p with ⟨key, sc⟩
      obtain ⟨g1, g2, g3⟩ := evalDemand_ok_trace db ms s s1 d key sc hsub hfac hev
      simp only at h
      obtain ⟨i1, i2, i3, i4⟩ := ih s1 s2 (upsert acc key sc) r
        (by intro k2 hk2; rw [g2]; exact hsub k2 hk2) g1 h
      have hsolve : s1.ops.count Op.solve = s.ops.count Op.solve + 1 := by
        rw [g3]
        have h0 : (Op.solve) ∉ (keysOf ms).map Op.characterize := by
          simp
        simp [List.count_append, List.count_eq_zero.mpr h0]
      have hfacc : s1.ops.count Op.factorize = s.ops.count Op.factorize := by
        rw [g3]
        have h0 : (Op.factorize) ∉ (keysOf ms).map Op.characterize := by simp
        have h1 : (Op.factorize) ∉ [Op.solve] := by simp
        simp [List.count_append, List.count_eq_zero.mpr h0, List.count_eq_zero.mpr h1]
      have hbuild : ∀ k, s1.ops.count (Op.buildC k) = s.ops.count (Op.buildC k) := by
        intro k
        rw [g3]
        have h0 : (Op.buildC k) ∉ (keysOf ms).map Op.characterize := by simp
        have h1 : (Op.buildC k) ∉ [Op.solve] := by simp
        simp [List.count_append, List.count_eq_zero.mpr h0, List.count_eq_zero.mpr h1]
      have hchar : ∀ k, s1.ops.count (Op.characterize k)
          = s.ops.count (Op.characterize k) + (keysOf ms).count k := by
        intro k
        rw [g3]
        have h1 : (Op.characterize k) ∉ [Op.solve] := by simp
        simp [List.count_append, List.count_eq_zero.mpr h1,
          count_map_characterize]
      refine ⟨?_, ?_, ?_, ?_⟩
      · rw [i1, hsolve]; simp only [List.length_cons]; omega
      · rw [i2, hfacc]
      · intro k; rw [i3 k, hbuild k]
      · intro k
        rw [i4 k, hchar k]
        have : (d :: ds).length = ds.length + 1 := rfl
        rw [this, Nat.succ_mul]
        omega

/-! ## Linearity of the modelled pipeline -/

theorem foldl_update_smul {np : ℕ} (k : ℚ) :
    ∀ (l : List (Fin np × ℚ)) (v : Fin np → ℚ),
      List.foldl (fun v p => Function.update v p.1 p.2) (k • v)
          (l.map (fun p => (p.1, k * p.2)))
        = k • List.foldl (fun v p => Function.update v p.1 p.2) v l := by
  intro l
  induction l with
  | nil => intro v; rfl
  | cons p l ih =>
    intro v
    rcases p with ⟨i, a⟩
    simp only [List.map_cons, List.foldl_cons]
    have hupd : Function.update (k • v) i (k * a) = k • Function.update v i a := by
      funext j
      by_cases hj : j = i
      · subst hj; simp
      · simp [Function.update_apply, hj]
    rw [hupd, ih]

theorem dictToVec_scale {np : ℕ} (k : ℚ) (l : List (Fin np × ℚ)) :
    dictToVec (l.map (fun p => (p.1, k * p.2))) = k • dictToVec l := by
  unfold dictToVec
  nth_rewrite 1 [show (0 : Fin np → ℚ) = k • 0 by simp]
  rw [foldl_update_smul]

theorem solveVec_smul {n : ℕ} (A : Matrix (Fin n) (Fin n) ℚ) (k : ℚ)
    (f : Fin n → ℚ) : solveVec A (k • f) = k • solveVec A f := by
  unfold solveVec
  rw [Matrix.mulVec_smul, smul_comm]

theorem inventory_smul {np ne : ℕ} (B : Matrix (Fin ne) (Fin np) ℚ) (k : ℚ)
    (sv : Fin np → ℚ) :
    B * Matrix.diagonal (k • sv) = k • (B * Matrix.diagonal sv) := by
  rw [Matrix.diagonal_smul, Matrix.mul_smul]

theorem matSum_smul {r c : ℕ} (k : ℚ) (M : Matrix (Fin r) (Fin c) ℚ) :
    matSum (k • M) = k * matSum M := by
  simp [matSum, Finset.mul_sum]

theorem scoreLoop_smul {np ne nc : ℕ} (db : Db np ne nc) (k : ℚ)
    (inv : Matrix (Fin ne) (Fin np) ℚ) :
    ∀ (ms : List MethodVal) (s : Sess),
      scoreLoop db (k • inv) s ms
        = ((scoreLoop db inv s ms).1,
           (scoreLoop db inv s ms).2.map
             (fun l => l.map (fun q => (q.1, k * q.2)))) := by
  intro ms
  induction ms with
  | nil => intro s; rfl
  | cons m ms ih =>
    intro s
    rcases hsw : switchOp db s m with ⟨s1, w⟩
    cases w with
    | error e => simp [scoreLoop, hsw, Except.map]
    | ok kc =>
      rcases kc with ⟨key, C⟩
      simp only [scoreLoop, hsw]
      rw [ih { s1 with ops := s1.ops ++ [.characterize key] }]
      rcases h2 : scoreLoop db inv { s1 with ops := s1.ops ++ [.characterize key] } ms
        with ⟨s3, w3⟩
      cases w3 with
      | error e => simp [Except.map]
      | ok rest =>
        simp only [Except.map, List.map_cons]
        have hCk : C * (k • inv) = k • (C * inv) := Matrix.mul_smul C k inv
        rw [hCk, matSum_smul]

theorem evalDemand_smul {np ne nc : ℕ} (db : Db np ne nc) (ms : List MethodVal)
    (k : ℚ) (d : Demand) (s : Sess) :
    evalDemand db ms s (d.map (fun p => (p.1, k * p.2)))
      = ((evalDemand db ms s d).1,
         (evalDemand db ms s d).2.map
           (fun p => (p.1, p.2.map (fun q => (q.1, k * q.2))))) := by
  rcases d with _ | ⟨⟨k0, v0⟩, rest⟩
  · rfl
  · rcases ha : db.getAct k0 with _ | a
    · simp [evalDemand, ha, Except.map]
    · have hvec : intDemandVec db a ((k0, k * v0) :: rest.map (fun p => (p.1, k * p.2)))
          = k • intDemandVec db a ((k0, v0) :: rest) := by
        unfold intDemandVec
        rw [← dictToVec_scale]
        simp only [List.map_cons, List.map_map]
        have hco : ((fun p : Fin np × ℚ => (p.1, k * p.2)) ∘ fun p : String × ℚ => (a, p.2))
            = ((fun p : String × ℚ => (a, p.2)) ∘ fun p : String × ℚ => (p.1, k * p.2)) := rfl
        rw [hco]
      have hsolve : solveOp db s (k • intDemandVec db a ((k0, v0) :: rest))
          = ((solveOp db s (intDemandVec db a ((k0, v0) :: rest))).1,
             k • (solveOp db s (intDemandVec db a ((k0, v0) :: rest))).2) := by
        by_cases hf : s.factorized <;> simp [solveOp, hf, solveVec_smul]
      rcases h1 : solveOp db s (intDemandVec db a ((k0, v0) :: rest)) with ⟨s1, sv⟩
      rw [h1] at hsolve
      simp only [List.map_cons, evalDemand, ha, hvec, hsolve, h1]
      rw [inventory_smul, scoreLoop_smul]
      rcases h2 : scoreLoop db (db.B * Matrix.diagonal sv) s1 ms with ⟨s2, w2⟩
      cases w2 with
      | error e => simp [Except.map]
      | ok scores => simp [Except.map]

/-! ## Demand-union resolution -/

theorem resolveAll_append_ok {np ne nc : ℕ} (db : Db np ne nc) :
    ∀ (l1 l2 : List (String × ℚ)) (a b : List (Fin np × ℚ)),
      resolveAll db l1 = .ok a → resolveAll db l2 = .ok b →
      resolveAll db (l1 ++ l2) = .ok (a ++ b) := by
  intro l1
  induction l1 with
  | nil =>
    intro l2 a b h1 h2
    simp only [resolveAll] at h1
    injection h1 with h1
    subst h1
    simpa using h2
  | cons p l1 ih =>
    rcases p with ⟨key, v⟩
    intro l2 a b h1 h2
    rcases hg : db.getAct key with _ | i
    · simp [resolveAll, hg] at h1
    · simp only [resolveAll, hg] at h1
      rcases hh : resolveAll db l1 with e | as
      · rw [hh] at h1; simp [Except.map] at h1
      · rw [hh] at h1
        simp only [Except.map] at h1
        injection h1 with h1
        subst h1
        have hres := ih l2 as b hh h2
        simp only [List.cons_append, resolveAll, hg, List.append_eq, hres, Except.map]

theorem resolveAll_append_ok_inv {np ne nc : ℕ} (db : Db np ne nc) :
    ∀ (l1 l2 : List (String × ℚ)) (c : List (Fin np × ℚ)),
      resolveAll db (l1 ++ l2) = .ok c →
      ∃ a b, resolveAll db l1 = .ok a ∧ resolveAll db l2 = .ok b ∧ c = a ++ b := by
  intro l1
  induction l1 with
  | nil =>
    intro l2 c h
    exact ⟨[], c, rfl, by simpa using h, rfl⟩
  | cons p l1 ih =>
    rcases p with ⟨key, v⟩
    intro l2 c h
    rcases hg : db.getAct key with _ | i
    · simp [resolveAll, hg] at h
    · simp only [List.cons_append, resolveAll, hg, List.append_eq] at h
      rcases hh : resolveAll db (l1 ++ l2) with e | cs
      · rw [hh] at h; simp [Except.map] at h
      · rw [hh] at h
        simp only [Except.map] at h
        injection h with h
        obtain ⟨a, b, ha, hb, hc⟩ := ih l2 cs hh
        refine ⟨(i, v) :: a, b, ?_, hb, by rw [← h, hc]; rfl⟩
        simp only [resolveAll, hg, ha, Except.map]

theorem allDemandsOf_cons (d : Demand) (ds : List Demand) :
    allDemandsOf (d :: ds)
      = d.map (fun p => (p.1, (1 : ℚ))) ++ allDemandsOf ds := by
  simp [allDemandsOf]

theorem allDemandsOf_keys_only (d : Demand) (k : ℚ) :
    allDemandsOf [d.map (fun p => (p.1, k * p.2))] = allDemandsOf [d] := by
  simp [allDemandsOf, List.map_map]

/-! ## `run_lca` validation loops -/

theorem findAppendAux {α : Type} (p : α → Bool) :
    ∀ l1 l2 : List α,
      List.find? p (l1 ++ l2)
        = match List.find? p l1 with
          | some a => some a
          | none => List.find? p l2 := by
  intro l1
  induction l1 with
  | nil => intro l2; simp
  | cons a l1 ih =>
    intro l2
    by_cases h : p a <;> simp [List.find?, h, ih l2]

theorem checkKeys_spec {np ne nc : ℕ} (db : Db np ne nc) :
    ∀ d : List (String × ℚ),
      checkKeys db d
        = match (d.map Prod.fst).find? (fun k2 => (db.getAct k2).isNone) with
          | some k2 => .error (.notFound ("Activity " ++ k2 ++ " not found."))
          | none => .ok () := by
  intro d
  induction d with
  | nil => rfl
  | cons p rest ih =>
    rcases p with ⟨key, v⟩
    rcases hg : db.getAct key with _ | a
    · simp [checkKeys, hg, List.find?]
    · simp [checkKeys, hg, List.find?, ih]

theorem checkDemandKeys_spec {np ne nc : ℕ} (db : Db np ne nc) :
    ∀ ds : List Demand,
      checkDemandKeys db ds
        = match firstUnknownKey db ds with
          | some k2 => .error (.notFound ("Activity " ++ k2 ++ " not found."))
          | none => .ok () := by
  intro ds
  induction ds with
  | nil => rfl
  | cons d ds ih =>
    simp only [checkDemandKeys, checkKeys_spec db d, ih]
    unfold firstUnknownKey
    rw [List.flatMap_cons, findAppendAux]
    rcases h1 : (d.map Prod.fst).find? (fun k2 => (db.getAct k2).isNone) with _ | k2
    · simp [firstUnknownKey]
    · simp

theorem catsLoop_bad {np ne nc : ℕ} (db : Db np ne nc) :
    ∀ ics : List (List String),
      (∃ ml ∈ ics, badCat db ml = true) →
      catsLoop db ics = .error (.notFound "Impact category not found.") := by
  intro ics
  induction ics with
  | nil => rintro ⟨ml, hml, _⟩; cases hml
  | cons ml0 rest ih =>
    rintro ⟨ml, hml, hbad⟩
    rcases ht : tupleOfList ml0 with _ | t
    · simp [catsLoop, ht]
    · rcases List.mem_cons.mp hml with heq | hmem
      · subst heq
        unfold badCat at hbad
        rw [ht] at hbad
        have hnot : t ∉ db.methodsList := of_decide_eq_true hbad
        simp [catsLoop, ht, hnot]
      · by_cases hin : t ∈ db.methodsList
        · simp only [catsLoop, ht, if_pos hin, ih ⟨ml, hmem, hbad⟩, Except.map]
        · simp [catsLoop, ht, hin]

theorem selectMethods_lcia {np ne nc : ℕ} (db : Db np ne nc)
    (ds : List Demand) (ics : List (List String)) (s : String) (hs : s ≠ "") :
    selectMethods db ⟨ds, ics, some s⟩
      = .ok (db.methodsList.filter (fun m => m.1 == s)) := by
  simp [selectMethods, hs]

/-! ## Claim theorems -/

/-- C5: calling `staticLCA` with an empty method list fails with the
empty-methods `ValueError` before any session operation happens: the
operation trace is empty, so no matrix is built, nothing is factorized or
solved and the process graph is never touched (the model is pure, so no
stored state can change). -/
theorem C5_empty_methods {np ne nc : ℕ} (db : Db np ne nc)
    (demands : List Demand) :
    staticLCA db demands [] = ([], .error .noMethods) :=
  staticLCA_no_methods db demands

/-- C8: `convert_results_format` keeps every outer key and every score
value unchanged and renders each 3-part method key as its components
joined with the fixed separator " | "; in particular ("a","b","c") becomes
"a | b | c". -/
theorem C8_convert_results_format (rs : ResultDict) :
    (convert_results_format rs).map Prod.fst = rs.map Prod.fst ∧
    (convert_results_format rs).map (fun p => p.2.map Prod.snd)
      = rs.map (fun p => p.2.map Prod.snd) ∧
    (convert_results_format rs).map (fun p => p.2.map Prod.fst)
      = rs.map (fun p => p.2.map
          (fun q => q.1.1 ++ " | " ++ q.1.2.1 ++ " | " ++ q.1.2.2)) ∧
    joinKey ("a", "b", "c") = "a | b | c" := by
  refine ⟨?_, ?_, ?_, rfl⟩ <;>
    simp [convert_results_format, joinKey, List.map_map, Function.comp]

/-- C1 (code bug): the right-hand side `staticLCA` solves against is NOT
the demand's own sparse mapping.  On the two-entry demand
{p1: 1, p2: 2} the code's `int_demand` comprehension keys every amount by
the FIRST activity's id, so the vector it builds is {id(p1): 2} —
first process, last amount — while the spec's demand vector is
{id(p1): 1, id(p2): 2}. -/
theorem C1_demand_vector_bug :
    (demandVecCode testDb2 [("p1", 1), ("p2", 2)]).map (fun v => (v 0, v 1))
        = some ((2 : ℚ), (0 : ℚ)) ∧
    (demandVecSpec testDb2 [("p1", 1), ("p2", 2)]).map (fun v => (v 0, v 1))
        = some ((1 : ℚ), (2 : ℚ)) ∧
    demandVecCode testDb2 [("p1", 1), ("p2", 2)]
        ≠ demandVecSpec testDb2 [("p1", 1), ("p2", 2)] := by
  have hA : (demandVecCode testDb2 [("p1", 1), ("p2", 2)]).map (fun v => (v 0, v 1))
      = some ((2 : ℚ), (0 : ℚ)) := by decide
  have hB : (demandVecSpec testDb2 [("p1", 1), ("p2", 2)]).map (fun v => (v 0, v 1))
      = some ((1 : ℚ), (2 : ℚ)) := by decide
  refine ⟨hA, hB, fun h => ?_⟩
  rw [h, hB] at hA
  injection hA with hA
  injection hA with hA hA2
  norm_num at hA

/-- C6 counterexample: a method list whose first element is a well-formed
key but whose second element is not a tuple at all passes the validation
assertion (`.ok ()`), and `staticLCA` proceeds into matrix work (the
trace already holds a factorization, a solve and a characterization
build) before failing with a method-lookup error — not with a validation
error. -/
theorem C6_counterexample :
    checkMethods [.key ("m", "c", "i"), .nonTuple] = .ok () ∧
    staticLCA testDb2 [] [.key ("m", "c", "i"), .nonTuple]
      = ([.factorize, .solve, .buildC ("m", "c", "i")], .error .methodNotFound) := by
  exact ⟨rfl, rfl⟩

/-- C6 (amended): the shape assertion examines only the first element of
a non-empty method list — it passes iff the head is a tuple whose first
component is a string, regardless of every later element — and whenever
validation does fail, `staticLCA` stops with an empty trace, before any
matrix work. -/
theorem C6_only_first_checked {np ne nc : ℕ} (db : Db np ne nc)
    (ds : List Demand) (h : MethodVal) (tl : List MethodVal) :
    (checkMethods (h :: tl) = .ok () ↔ (h.isTuple && h.firstIsStr) = true) ∧
    (∀ e, checkMethods (h :: tl) = .error e →
      staticLCA db ds (h :: tl) = ([], .error e)) := by
  constructor
  · by_cases hc : (h.isTuple && h.firstIsStr) = true <;> simp [checkMethods, hc]
  · intro e he
    simp [staticLCA, staticPrelude, he]

/-- Witness for C6: at the concrete malformed head `nonTuple`, validation
fails with the assertion error and `staticLCA` returns the empty trace. -/
theorem C6_only_first_checked_witness :
    (checkMethods [MethodVal.nonTuple] = .error .assertFailed) ∧
    (checkMethods [MethodVal.nonTuple] = .ok ()
        ↔ (MethodVal.nonTuple.isTuple && MethodVal.nonTuple.firstIsStr) = true) ∧
    staticLCA testDb2 [] [MethodVal.nonTuple] = ([], .error .assertFailed) :=
  ⟨rfl, (C6_only_first_checked testDb2 [] .nonTuple []).1,
   (C6_only_first_checked testDb2 [] .nonTuple []).2 .assertFailed rfl⟩

/-- C10: when a request carries both a (truthy) `lcia_method` and a
non-empty `impact_categories` list, the categories are ignored: the
selected methods are exactly the registered keys whose first component
equals the `lcia_method` string, no not-found check runs on the supplied
categories, and the whole call behaves exactly as if `impact_categories`
were empty. -/
theorem C10_lcia_overrides {np ne nc : ℕ} (db : Db np ne nc)
    (ds : List Demand) (ics : List (List String)) (s : String) (hs : s ≠ "") :
    selectMethods db ⟨ds, ics, some s⟩
        = .ok (db.methodsList.filter (fun m => m.1 == s)) ∧
    run_lca db ⟨ds, ics, some s⟩ = run_lca db ⟨ds, [], some s⟩ := by
  refine ⟨selectMethods_lcia db ds ics s hs, ?_⟩
  simp only [run_lca, selectMethods_lcia db ds ics s hs,
    selectMethods_lcia db ds [] s hs]

/-- Witness for C10: concrete request with a bogus impact category and
lcia_method "m". -/
theorem C10_lcia_overrides_witness :
    ("m" : String) ≠ "" ∧
    (selectMethods testDb1 ⟨[[("p", 1)]], [["bogus"]], some "m"⟩
        = .ok (testDb1.methodsList.filter (fun m => m.1 == "m")) ∧
     run_lca testDb1 ⟨[[("p", 1)]], [["bogus"]], some "m"⟩
        = run_lca testDb1 ⟨[[("p", 1)]], [], some "m"⟩) :=
  ⟨by decide, C10_lcia_overrides testDb1 [[("p", 1)]] [["bogus"]] "m" (by decide)⟩

/-- C4 counterexample: with one registered method ("m","c","i"), a request
whose `lcia_method` is "zzz" (matching no registered method) and whose
demand references only the valid process "p" is NOT rejected with a
not-found error: method selection silently yields an empty list and the
call fails with the internal empty-methods `ValueError` (an HTTP 500). -/
theorem C4_counterexample :
    run_lca testDb1 ⟨[[("p", 1)]], [], some "zzz"⟩
        = .error (.internal .noMethods) ∧
    isNotFound (run_lca testDb1 ⟨[[("p", 1)]], [], some "zzz"⟩) = false := by
  exact ⟨rfl, rfl⟩

/-- C4 (amended): `run_lca` aborts the whole batch with a 404 naming the
first unknown activity key of any demand; an unknown explicitly-supplied
impact category aborts the batch with a 404 whose message does not name
the offending key; but an `lcia_method` matching no registered method is
not caught by any not-found check — selection yields an empty method
list and the call fails with the internal empty-methods error instead. -/
theorem C4_notfound_behavior {np ne nc : ℕ} :
    (∀ (db : Db np ne nc) (body : LCARequest) (k : String),
      firstUnknownKey db body.demands = some k →
      run_lca db body = .error (.notFound ("Activity " ++ k ++ " not found."))) ∧
    (∀ (db : Db np ne nc) (body : LCARequest),
      (body.lcia_method = none ∨ body.lcia_method = some "") →
      (∃ ml ∈ body.impact_categories, badCat db ml = true) →
      firstUnknownKey db body.demands = none →
      run_lca db body = .error (.notFound "Impact category not found.")) ∧
    (∀ (db : Db np ne nc) (body : LCARequest) (s : String),
      body.lcia_method = some s → s ≠ "" →
      db.methodsList.filter (fun m => m.1 == s) = [] →
      firstUnknownKey db body.demands = none →
      run_lca db body = .error (.internal .noMethods)) := by
  refine ⟨?_, ?_, ?_⟩
  · intro db body k hk
    simp only [run_lca, checkDemandKeys_spec db body.demands, hk]
  · intro db body hfalsy hbad hok
    have hics : body.impact_categories ≠ [] := by
      rcases hbad with ⟨ml, hml, _⟩
      intro hnil
      rw [hnil] at hml
      cases hml
    have hsel : selectMethods db body = .error (.notFound "Impact category not found.") := by
      have hcats : selectMethods.selectFromCats db body.impact_categories
          = .error (.notFound "Impact category not found.") := by
        unfold selectMethods.selectFromCats
        rw [if_neg (by simpa using hics)]
        exact catsLoop_bad db body.impact_categories hbad
      rcases hfalsy with h | h <;> simp [selectMethods, h, hcats]
    simp only [run_lca, checkDemandKeys_spec db body.demands, hok, hsel]
  · intro db body s hs hs0 hfilter hok
    have hsel : selectMethods db body = .ok [] := by
      simp [selectMethods, hs, hs0, hfilter]
    simp only [run_lca, checkDemandKeys_spec db body.demands, hok, hsel,
      List.map_nil, staticLCA_no_methods]

/-- Witness for C4: the three amended behaviors at concrete requests
against `testDb1`: an unknown demand key "q", a bogus explicit impact
category, and an lcia_method "zz" matching nothing. -/
theorem C4_notfound_behavior_witness :
    (firstUnknownKey testDb1 [[("q", 1)]] = some "q" ∧
     run_lca testDb1 ⟨[[("q", 1)]], [], none⟩
        = .error (.notFound ("Activity " ++ "q" ++ " not found."))) ∧
    (run_lca testDb1 ⟨[[("p", 1)]], [["bogus"]], none⟩
        = .error (.notFound "Impact category not found.")) ∧
    (run_lca testDb1 ⟨[[("p", 1)]], [], some "zz"⟩
        = .error (.internal .noMethods)) :=
  ⟨⟨rfl, C4_notfound_behavior.1 testDb1 ⟨[[("q", 1)]], [], none⟩ "q" rfl⟩,
   C4_notfound_behavior.2.1 testDb1 ⟨[[("p", 1)]], [["bogus"]], none⟩
     (Or.inl rfl) ⟨["bogus"], by simp, rfl⟩ rfl,
   C4_notfound_behavior.2.2 testDb1 ⟨[[("p", 1)]], [], some "zz"⟩ "zz"
     rfl (by decide) rfl rfl⟩

/-- C2 counterexample: with one demand and one method, a successful
evaluation performs TWO solves — the session's initial `lci()` over the
union demand plus the per-demand `lci` — not exactly one per demand. -/
theorem C2_counterexample :
    (staticLCA testDb1 [[("p", 1)]] [.key ("m", "c", "i")]).1.count Op.solve = 2 ∧
    (1 : ℕ) ≠ 2 := by
  exact ⟨rfl, by decide⟩

/-- C2 (amended): in every successful `staticLCA` evaluation the
technosphere matrix is factorized exactly once, each requested method's
characterization matrix is built exactly once (and no other method's is
built at all), exactly one characterization is applied per demand–method
pair, and the number of linear solves is the number of demands PLUS ONE
— the extra solve being the initial `lci()` over the union demand run at
session setup. -/
theorem C2_work_counts {np ne nc : ℕ} (db : Db np ne nc) (ds : List Demand)
    (ms : List MethodVal) (t : List Op) (r : FmtResults)
    (h : staticLCA db ds ms = (t, .ok r)) :
    t.count .factorize = 1 ∧
    t.count .solve = ds.length + 1 ∧
    (∀ k, k ∈ keysOf ms → t.count (.buildC k) = 1) ∧
    (∀ k, k ∉ keysOf ms → t.count (.buildC k) = 0) ∧
    (∀ k, t.count (.characterize k) = ds.length * (keysOf ms).count k) := by
  obtain ⟨intAll, s2, s3, results, hp, hb, hr, ht, hres⟩ := staticLCA_ok_inv h
  subst ht
  have hs1 : (solveOp db Sess.init (dictToVec intAll)).1
      = ⟨true, [], [Op.factorize, Op.solve]⟩ := rfl
  rw [hs1] at hb
  obtain ⟨b1, b2, b3, b4, b5, b6⟩ :=
    buildCms_ok_spec db ms ⟨true, [], [Op.factorize, Op.solve]⟩ s2 hb
  have hsub : ∀ k, k ∈ keysOf ms → k ∈ s2.builtC := fun k hk => (b2 k).mpr (Or.inl hk)
  obtain ⟨r1, r2, r3, r4⟩ := runDemands_ok_counts db ms ds s2 s3 [] results hsub b1 hr
  have cfac : ([Op.factorize, Op.solve] : List Op).count Op.factorize = 1 := rfl
  have csol : ([Op.factorize, Op.solve] : List Op).count Op.solve = 1 := rfl
  have cbuild : ∀ k, ([Op.factorize, Op.solve] : List Op).count (Op.buildC k) = 0 := by
    intro k; rfl
  have cchar : ∀ k, ([Op.factorize, Op.solve] : List Op).count (Op.characterize k) = 0 := by
    intro k; rfl
  refine ⟨?_, ?_, ?_, ?_, ?_⟩
  · rw [r2, b5, cfac]
  · rw [r1, b4, csol]; omega
  · intro k hk
    rw [r3 k, b3 k, cbuild k]
    simp [hk]
  · intro k hk
    rw [r3 k, b3 k, cbuild k]
    simp [hk]
  · intro k
    rw [r4 k, b6 k, cchar k]
    omega

/-- Witness for C2 (amended): the concrete one-demand, one-method run on
`testDb1`, whose trace is `[factorize, solve, buildC, solve,
characterize]`. -/
theorem C2_work_counts_witness :
    (staticLCA testDb1 [[("p", 1)]] [.key ("m", "c", "i")]
        = ([.factorize, .solve, .buildC ("m", "c", "i"), .solve,
            .characterize ("m", "c", "i")],
           .ok [("P", [("m | c | i", 15)])])) ∧
    ([Op.factorize, Op.solve, Op.buildC ("m", "c", "i"), Op.solve,
      Op.characterize ("m", "c", "i")] : List Op).count Op.factorize = 1 ∧
    ([Op.factorize, Op.solve, Op.buildC ("m", "c", "i"), Op.solve,
      Op.characterize ("m", "c", "i")] : List Op).count Op.solve = 2 ∧
    ([Op.factorize, Op.solve, Op.buildC ("m", "c", "i"), Op.solve,
      Op.characterize ("m", "c", "i")] : List Op).count
        (Op.buildC ("m", "c", "i")) = 1 ∧
    ([Op.factorize, Op.solve, Op.buildC ("m", "c", "i"), Op.solve,
      Op.characterize ("m", "c", "i")] : List Op).count
        (Op.characterize ("m", "c", "i")) = 1 := by
  have h : staticLCA testDb1 [[("p", 1)]] [.key ("m", "c", "i")]
      = ([.factorize, .solve, .buildC ("m", "c", "i"), .solve,
          .characterize ("m", "c", "i")],
         .ok [("P", [("m | c | i", 15)])]) := by
    simp [staticLCA, staticPrelude, checkMethods, allDemandsOf, resolveAll,
      constructorCheck, testDb1, solveOp, Sess.init, buildCms, switchOp,
      MethodVal.asKey?, runDemands, evalDemand, intDemandVec, dictToVec,
      solveVec_one, scoreLoop, matSum, upsert, convert_results_format, joinKey,
      MethodVal.isTuple, MethodVal.firstIsStr, Matrix.mul_apply,
      Fin.sum_univ_succ, Function.update_apply, Except.map, Matrix.diagonal_apply,
      Matrix.vecHead, Matrix.vecTail, Matrix.of_apply, Matrix.cons_val_zero,
      Matrix.cons_val_one, Matrix.head_cons, Matrix.vecMul, Matrix.dotProduct]
    norm_num
  have c := C2_work_counts testDb1 [[("p", 1)]] [.key ("m", "c", "i")] _ _ h
  exact ⟨h, c.1, c.2.1, c.2.2.1 ("m", "c", "i") (by decide),
    c.2.2.2.2 ("m", "c", "i")⟩

/-- C7: scaling every amount of a demand by a positive scalar k scales
every resulting score by exactly k (the model computes in exact rational
arithmetic), with identical traces and identical error behavior. -/
theorem C7_linearity {np ne nc : ℕ} (db : Db np ne nc) (d : Demand)
    (ms : List MethodVal) (k : ℚ) (_hk : 0 < k) :
    staticLCA db [d.map (fun p => (p.1, k * p.2))] ms
      = ((staticLCA db [d] ms).1,
         (staticLCA db [d] ms).2.map
           (fun res => res.map
             (fun p => (p.1, p.2.map (fun q => (q.1, k * q.2)))))) := by
  have hpre : staticPrelude db [d.map (fun p => (p.1, k * p.2))] ms
      = staticPrelude db [d] ms := by
    unfold staticPrelude
    rw [allDemandsOf_keys_only]
  rcases hp : staticPrelude db [d] ms with e | intAll
  · rw [hp] at hpre
    simp [staticLCA, hpre, hp, Except.map]
  · rw [hp] at hpre
    simp only [staticLCA, hpre, hp]
    rcases hb : buildCms db (solveOp db Sess.init (dictToVec intAll)).1 ms
      with ⟨s2, rb⟩
    cases rb with
    | error e => simp [Except.map]
    | ok u =>
      cases u
      rcases hev : evalDemand db ms s2 d with ⟨σ, w⟩
      have hscaled := evalDemand_smul db ms k d s2
      rw [hev] at hscaled
      cases w with
      | error e =>
        simp only [runDemands, hev, hscaled, Except.map]
      | ok p =>
        rcases p with ⟨key, sc⟩
        simp only [runDemands, hev, hscaled, Except.map]
        have hco : ((fun q : MethodKey × ℚ => (joinKey q.1, q.2))
              ∘ fun q : MethodKey × ℚ => (q.1, k * q.2))
            = ((fun p : String × ℚ => (p.1, k * p.2))
              ∘ fun q : MethodKey × ℚ => (joinKey q.1, q.2)) := rfl
        simp [upsert, convert_results_format, List.map_map, hco]

/-- Witness for C7: doubling the single demand {p: 1} on `testDb1`. -/
theorem C7_linearity_witness :
    (0 : ℚ) < 2 ∧
    staticLCA testDb1 [List.map (fun p => (p.1, (2 : ℚ) * p.2)) [("p", 1)]]
        [.key ("m", "c", "i")]
      = ((staticLCA testDb1 [[("p", 1)]] [.key ("m", "c", "i")]).1,
         (staticLCA testDb1 [[("p", 1)]] [.key ("m", "c", "i")]).2.map
           (fun res => res.map
             (fun p => (p.1, p.2.map (fun q => (q.1, (2 : ℚ) * q.2)))))) :=
  ⟨by norm_num,
   C7_linearity testDb1 [("p", 1)] [.key ("m", "c", "i")] 2 (by norm_num)⟩

/-! ## Demand-loop inversion helpers -/

theorem runDemands_single_inv {np ne nc : ℕ} {db : Db np ne nc}
    {ms : List MethodVal} {s s3 : Sess} {res : ResultDict} {d : Demand}
    (h : runDemands db ms s [d] [] = (s3, .ok res)) :
    ∃ key sc, evalDemand db ms s d = (s3, .ok (key, sc)) ∧ res = [(key, sc)] := by
  rcases he : evalDemand db ms s d with ⟨σ, w⟩
  simp only [runDemands, he] at h
  cases w with
  | error e => simp at h
  | ok p =>
    rcases p with ⟨key, sc⟩
    simp only [runDemands] at h
    injection h with hA hB
    injection hB with hB
    subst hA
    refine ⟨key, sc, rfl, ?_⟩
    rw [← hB, upsert_nil]

theorem runDemands_pair_inv {np ne nc : ℕ} {db : Db np ne nc}
    {ms : List MethodVal} {s s3 : Sess} {res : ResultDict} {d1 d2 : Demand}
    (h : runDemands db ms s [d1, d2] [] = (s3, .ok res)) :
    ∃ σ1 key1 sc1 key2 sc2,
      evalDemand db ms s d1 = (σ1, .ok (key1, sc1)) ∧
      evalDemand db ms σ1 d2 = (s3, .ok (key2, sc2)) ∧
      res = upsert (upsert [] key1 sc1) key2 sc2 := by
  rcases he1 : evalDemand db ms s d1 with ⟨σ1, w1⟩
  simp only [runDemands, he1] at h
  cases w1 with
  | error e => simp at h
  | ok p1 =>
    rcases p1 with ⟨key1, sc1⟩
    rcases he2 : evalDemand db ms σ1 d2 with ⟨σ2, w2⟩
    simp only [he2] at h
    cases w2 with
    | error e => simp at h
    | ok p2 =>
      rcases p2 with ⟨key2, sc2⟩
      simp only [runDemands] at h
      injection h with hA hB
      injection hB with hB
      subst hA
      exact ⟨σ1, key1, sc1, key2, sc2, rfl, he2, hB.symm⟩

/-- C3 (amended): provided the two demands resolve to DISTINCT result
keys (string renderings of their first activities), evaluating `[d1, d2]`
in one call succeeds whenever the separate calls do, contains one entry
per demand, and each demand's per-method scores are exactly those of its
solo evaluation (the combined result is literally `r1 ++ r2`).  When the
two result keys coincide the later demand's entry overwrites the earlier
one (see the counterexample). -/
theorem C3_reuse_equivalence {np ne nc : ℕ} (db : Db np ne nc)
    (d1 d2 : Demand) (ms : List MethodVal) (t1 t2 : List Op)
    (r1 r2 : FmtResults) (k1 k2 : String)
    (h1 : staticLCA db [d1] ms = (t1, .ok r1))
    (h2 : staticLCA db [d2] ms = (t2, .ok r2))
    (hk1 : resultKey db d1 = some k1) (hk2 : resultKey db d2 = some k2)
    (hne : k1 ≠ k2) :
    ∃ t, staticLCA db [d1, d2] ms = (t, .ok (r1 ++ r2)) ∧
      (r1 ++ r2).length = 2 := by
  obtain ⟨ia1, s2a, s3a, res1, hp1, hb1, hr1, ht1, hres1⟩ := staticLCA_ok_inv h1
  obtain ⟨ia2, s2b, s3b, res2, hp2, hb2, hr2, ht2, hres2⟩ := staticLCA_ok_inv h2
  have hfresh1 : (solveOp db Sess.init (dictToVec ia1)).1
      = (⟨true, [], [Op.factorize, Op.solve]⟩ : Sess) := rfl
  have hfresh2 : (solveOp db Sess.init (dictToVec ia2)).1
      = (⟨true, [], [Op.factorize, Op.solve]⟩ : Sess) := rfl
  rw [hfresh1] at hb1
  rw [hfresh2] at hb2
  have hbeq := hb1.symm.trans hb2
  injection hbeq with hs2eq _hdrop
  subst hs2eq
  obtain ⟨key1, sc1, he1, hres1v⟩ := runDemands_single_inv hr1
  obtain ⟨key2, sc2, he2, hres2v⟩ := runDemands_single_inv hr2
  have hkk1 : key1 = k1 := by
    have hx := evalDemand_key he1
    rw [hk1] at hx
    injection hx with hx
    exact hx.symm
  have hkk2 : key2 = k2 := by
    have hx := evalDemand_key he2
    rw [hk2] at hx
    injection hx with hx
    exact hx.symm
  obtain ⟨hc1, hra1, hcc1⟩ := staticPrelude_ok_inv hp1
  obtain ⟨hc2, hra2, hcc2⟩ := staticPrelude_ok_inv hp2
  have hall : allDemandsOf [d1, d2] = allDemandsOf [d1] ++ allDemandsOf [d2] := by
    simp [allDemandsOf]
  have hresolve : resolveAll db (allDemandsOf [d1, d2]) = .ok (ia1 ++ ia2) := by
    rw [hall]
    exact resolveAll_append_ok db _ _ _ _ hra1 hra2
  have hpc : staticPrelude db [d1, d2] ms = .ok (ia1 ++ ia2) :=
    staticPrelude_of_parts hc1 hresolve hcc1
  have hbc : buildCms db (solveOp db Sess.init (dictToVec (ia1 ++ ia2))).1 ms
      = (s2a, .ok ()) := by
    have hfr : (solveOp db Sess.init (dictToVec (ia1 ++ ia2))).1
        = (⟨true, [], [Op.factorize, Op.solve]⟩ : Sess) := rfl
    rw [hfr]
    exact hb1
  rcases he2c : evalDemand db ms s3a d2 with ⟨σ2, w2⟩
  have hw2 : w2 = .ok (key2, sc2) := by
    have hind := evalDemand_snd_indep db ms d2 s3a s2a
    rw [he2c, he2] at hind
    exact hind
  subst hw2
  have hup : upsert [(key1, sc1)] key2 sc2 = [(key1, sc1), (key2, sc2)] := by
    rw [upsert_not_mem]
    · rfl
    · intro p hp
      simp only [List.mem_singleton] at hp
      rw [hp, hkk1, hkk2]
      exact hne
  have hcomb : runDemands db ms s2a [d1, d2] []
      = (σ2, .ok [(key1, sc1), (key2, sc2)]) := by
    simp only [runDemands, he1, upsert_nil, he2c, hup]
  have hfin := staticLCA_of_parts hpc hbc hcomb
  refine ⟨σ2.ops, ?_, ?_⟩
  · rw [hfin, hres1, hres1v, hres2, hres2v]
    simp [convert_results_format]
  · rw [hres1, hres1v, hres2, hres2v]
    simp [convert_results_format]

/-- C3 counterexample: the two distinct demands {p: 1} and {p: 2} share
their first (only) activity, so evaluating them together yields a single
result entry holding only the LATER demand's score 30; the score of
{p: 1} evaluated alone is 15, which is absent from the combined result —
the combined call neither keeps one entry per demand nor reproduces the
first demand's solo score. -/
theorem C3_counterexample :
    staticLCA testDb1 [[("p", 1)], [("p", 2)]] [.key ("m", "c", "i")]
      = ([.factorize, .solve, .buildC ("m", "c", "i"), .solve,
          .characterize ("m", "c", "i"), .solve, .characterize ("m", "c", "i")],
         .ok [("P", [("m | c | i", 30)])]) ∧
    staticLCA testDb1 [[("p", 1)]] [.key ("m", "c", "i")]
      = ([.factorize, .solve, .buildC ("m", "c", "i"), .solve,
          .characterize ("m", "c", "i")],
         .ok [("P", [("m | c | i", 15)])]) ∧
    (30 : ℚ) ≠ 15 := by
  refine ⟨?_, ?_, by norm_num⟩ <;>
  · simp [staticLCA, staticPrelude, checkMethods, allDemandsOf, resolveAll,
      constructorCheck, testDb1, solveOp, Sess.init, buildCms, switchOp,
      MethodVal.asKey?, runDemands, evalDemand, intDemandVec, dictToVec,
      solveVec_one, scoreLoop, matSum, upsert, convert_results_format, joinKey,
      MethodVal.isTuple, MethodVal.firstIsStr, Matrix.mul_apply,
      Fin.sum_univ_succ, Function.update_apply, Except.map, Matrix.diagonal_apply,
      Matrix.vecHead, Matrix.vecTail, Matrix.of_apply, Matrix.cons_val_zero,
      Matrix.cons_val_one, Matrix.head_cons, Matrix.vecMul, Matrix.dotProduct]
    norm_num

/-- C9: when the two demands of a combined call resolve to the same
result key (same first activity rendering), the result holds a single
entry under that key — fewer entries than demands — and that entry is
exactly what evaluating the LATER demand alone produces: the earlier
demand's scores are silently overwritten. -/
theorem C9_result_overwrite {np ne nc : ℕ} (db : Db np ne nc)
    (d1 d2 : Demand) (ms : List MethodVal) (t : List Op) (r : FmtResults)
    (key : String) (_hne : d1 ≠ d2)
    (h : staticLCA db [d1, d2] ms = (t, .ok r))
    (hk1 : resultKey db d1 = some key) (hk2 : resultKey db d2 = some key) :
    r.map Prod.fst = [key] ∧ r.length = 1 ∧
    r.length < ([d1, d2] : List Demand).length ∧
    ∃ t2, staticLCA db [d2] ms = (t2, .ok r) := by
  obtain ⟨intAll, s2, s3, results, hp, hb, hr, ht, hres⟩ := staticLCA_ok_inv h
  obtain ⟨σ1, key1, sc1, key2, sc2, he1, he2, hresv⟩ := runDemands_pair_inv hr
  have hkk1 : key1 = key := by
    have hx := evalDemand_key he1
    rw [hk1] at hx
    injection hx with hx
    exact hx.symm
  have hkk2 : key2 = key := by
    have hx := evalDemand_key he2
    rw [hk2] at hx
    injection hx with hx
    exact hx.symm
  have hresults : results = [(key, sc2)] := by
    rw [hresv, upsert_nil, hkk1, hkk2, upsert_single_overwrite]
  have hrval : r = [(key, sc2.map (fun q => (joinKey q.1, q.2)))] := by
    rw [hres, hresults]
    rfl
  obtain ⟨hc, hra, hcc⟩ := staticPrelude_ok_inv hp
  have hall : allDemandsOf [d1, d2] = allDemandsOf [d1] ++ allDemandsOf [d2] := by
    simp [allDemandsOf]
  rw [hall] at hra
  obtain ⟨ia1, ia2, hra1, hra2, hia⟩ := resolveAll_append_ok_inv db _ _ _ hra
  have hp2 : staticPrelude db [d2] ms = .ok ia2 :=
    staticPrelude_of_parts hc hra2 hcc
  have hb2 : buildCms db (solveOp db Sess.init (dictToVec ia2)).1 ms
      = (s2, .ok ()) := by
    have hfrA : (solveOp db Sess.init (dictToVec ia2)).1
        = (⟨true, [], [Op.factorize, Op.solve]⟩ : Sess) := rfl
    have hfrB : (solveOp db Sess.init (dictToVec intAll)).1
        = (⟨true, [], [Op.factorize, Op.solve]⟩ : Sess) := rfl
    rw [hfrA, ← hfrB]
    exact hb
  rcases he2s : evalDemand db ms s2 d2 with ⟨σ2s, w⟩
  have hw : w = .ok (key2, sc2) := by
    have hind := evalDemand_snd_indep db ms d2 s2 σ1
    rw [he2s, he2] at hind
    exact hind
  subst hw
  have hr2 : runDemands db ms s2 [d2] [] = (σ2s, .ok [(key2, sc2)]) := by
    simp only [runDemands, he2s, upsert_nil]
  have hfin := staticLCA_of_parts hp2 hb2 hr2
  refine ⟨by rw [hrval]; rfl, by rw [hrval]; rfl, by rw [hrval]; simp,
    ⟨σ2s.ops, ?_⟩⟩
  rw [hfin, hrval, hkk2]
  rfl

/-- Witness for C9: on `testDb1`, the distinct demands {p: 1} and {p: 2}
share the activity "p"; the combined run returns the single entry with
the later demand's score 30, which is the solo result of {p: 2}. -/
theorem C9_result_overwrite_witness :
    (([("p", (1 : ℚ))] : Demand) ≠ [("p", 2)] ∧
     staticLCA testDb1 [[("p", 1)], [("p", 2)]] [.key ("m", "c", "i")]
       = ([.factorize, .solve, .buildC ("m", "c", "i"), .solve,
           .characterize ("m", "c", "i"), .solve, .characterize ("m", "c", "i")],
          .ok [("P", [("m | c | i", 30)])]) ∧
     resultKey testDb1 [("p", 1)] = some "P" ∧
     resultKey testDb1 [("p", 2)] = some "P") ∧
    (([("P", [("m | c | i", (30 : ℚ))])] : FmtResults).map Prod.fst = ["P"] ∧
     ([("P", [("m | c | i", (30 : ℚ))])] : FmtResults).length = 1 ∧
     ([("P", [("m | c | i", (30 : ℚ))])] : FmtResults).length
        < ([[("p", 1)], [("p", 2)]] : List Demand).length ∧
     ∃ t2, staticLCA testDb1 [[("p", 2)]] [.key ("m", "c", "i")]
        = (t2, .ok [("P", [("m | c | i", 30)])])) := by
  have hne : ([("p", (1 : ℚ))] : Demand) ≠ [("p", 2)] := by
    intro hcontra
    injection hcontra with h1 h2
    injection h1 with ha hb
    norm_num at hb
  have h : staticLCA testDb1 [[("p", 1)], [("p", 2)]] [.key ("m", "c", "i")]
      = ([.factorize, .solve, .buildC ("m", "c", "i"), .solve,
          .characterize ("m", "c", "i"), .solve, .characterize ("m", "c", "i")],
         .ok [("P", [("m | c | i", 30)])]) := by
    simp [staticLCA, staticPrelude, checkMethods, allDemandsOf, resolveAll,
      constructorCheck, testDb1, solveOp, Sess.init, buildCms, switchOp,
      MethodVal.asKey?, runDemands, evalDemand, intDemandVec, dictToVec,
      solveVec_one, scoreLoop, matSum, upsert, convert_results_format, joinKey,
      MethodVal.isTuple, MethodVal.firstIsStr, Matrix.mul_apply,
      Fin.sum_univ_succ, Function.update_apply, Except.map, Matrix.diagonal_apply,
      Matrix.vecHead, Matrix.vecTail, Matrix.of_apply, Matrix.cons_val_zero,
      Matrix.cons_val_one, Matrix.head_cons, Matrix.vecMul, Matrix.dotProduct]
    norm_num
  exact ⟨⟨hne, h, rfl, rfl⟩,
    C9_result_overwrite testDb1 [("p", 1)] [("p", 2)] [.key ("m", "c", "i")]
      _ _ "P" hne h rfl rfl⟩

/-- Witness for C3 (amended): on `testDb2` the demands {p1: 1} and
{p2: 2} have distinct result keys "P1" and "P2"; the combined run
returns both entries with exactly the solo scores 3 and 30. -/
theorem C3_reuse_equivalence_witness :
    (staticLCA testDb2 [[("p1", 1)]] [.key ("m", "c", "i")]
       = ([.factorize, .solve, .buildC ("m", "c", "i"), .solve,
           .characterize ("m", "c", "i")],
          .ok [("P1", [("m | c | i", 3)])]) ∧
     staticLCA testDb2 [[("p2", 2)]] [.key ("m", "c", "i")]
       = ([.factorize, .solve, .buildC ("m", "c", "i"), .solve,
           .characterize ("m", "c", "i")],
          .ok [("P2", [("m | c | i", 30)])]) ∧
     resultKey testDb2 [("p1", 1)] = some "P1" ∧
     resultKey testDb2 [("p2", 2)] = some "P2" ∧
     ("P1" : String) ≠ "P2") ∧
    (∃ t, staticLCA testDb2 [[("p1", 1)], [("p2", 2)]] [.key ("m", "c", "i")]
        = (t, .ok (([("P1", [("m | c | i", (3 : ℚ))])] : FmtResults)
            ++ [("P2", [("m | c | i", 30)])])) ∧
      ((([("P1", [("m | c | i", (3 : ℚ))])] : FmtResults)
          ++ [("P2", [("m | c | i", 30)])]).length = 2)) := by
  have h1 : staticLCA testDb2 [[("p1", 1)]] [.key ("m", "c", "i")]
      = ([.factorize, .solve, .buildC ("m", "c", "i"), .solve,
          .characterize ("m", "c", "i")],
         .ok [("P1", [("m | c | i", 3)])]) := by
    simp [staticLCA, staticPrelude, checkMethods, allDemandsOf, resolveAll,
      constructorCheck, testDb2, solveOp, Sess.init, buildCms, switchOp,
      MethodVal.asKey?, runDemands, evalDemand, intDemandVec, dictToVec,
      solveVec_one, scoreLoop, matSum, upsert, convert_results_format, joinKey,
      MethodVal.isTuple, MethodVal.firstIsStr, Matrix.mul_apply,
      Fin.sum_univ_succ, Function.update_apply, Except.map, Matrix.diagonal_apply,
      Matrix.vecHead, Matrix.vecTail, Matrix.of_apply, Matrix.cons_val_zero,
      Matrix.cons_val_one, Matrix.head_cons, Matrix.vecMul, Matrix.dotProduct]
  have h2 : staticLCA testDb2 [[("p2", 2)]] [.key ("m", "c", "i")]
      = ([.factorize, .solve, .buildC ("m", "c", "i"), .solve,
          .characterize ("m", "c", "i")],
         .ok [("P2", [("m | c | i", 30)])]) := by
    simp [staticLCA, staticPrelude, checkMethods, allDemandsOf, resolveAll,
      constructorCheck, testDb2, solveOp, Sess.init, buildCms, switchOp,
      MethodVal.asKey?, runDemands, evalDemand, intDemandVec, dictToVec,
      solveVec_one, scoreLoop, matSum, upsert, convert_results_format, joinKey,
      MethodVal.isTuple, MethodVal.firstIsStr, Matrix.mul_apply,
      Fin.sum_univ_succ, Function.update_apply, Except.map, Matrix.diagonal_apply,
      Matrix.vecHead, Matrix.vecTail, Matrix.of_apply, Matrix.cons_val_zero,
      Matrix.cons_val_one, Matrix.head_cons, Matrix.vecMul, Matrix.dotProduct]
    norm_num
  exact ⟨⟨h1, h2, rfl, rfl, by decide⟩,
    C3_reuse_equivalence testDb2 [("p1", 1)] [("p2", 2)] [.key ("m", "c", "i")]
      _ _ _ _ "P1" "P2" h1 h2 rfl rfl (by decide)⟩
